import Mathlib

/-!
Verification of the tennis-court-scheduler repository.

The development shallowly embeds the three source files:
* `src/src/components/PlayerStats.tsx` — the player-statistics
  aggregation (`calculatePlayerStats`);
* `src/src/components/EmailNotifications` (unnamed source file) — the
  recipient validation (`validateEmails`) and batch dispatch
  (`sendNotifications`);
* `src/src/App.tsx` — the per-date booking list updates
  (`handleSaveBooking`, `handleDeleteBooking`).

JavaScript `Map` objects (insertion-ordered, first-occurrence keyed)
are embedded as association lists with `getA`/`setA`.  Machine numbers
in the source are small non-negative counters, embedded as `Nat`.
-/

namespace Tennis

/-- Booking type: `'singles' | 'doubles'`. -/
inductive BType where
  | singles
  | doubles
deriving DecidableEq, Repr

/-- The `Booking` record shared by all three source files. -/
structure Booking where
  id : String
  court : Nat
  timeSlot : String
  players : List String
  type : BType
  date : String
deriving DecidableEq, Repr

/-- The `PlayerStat` record of `PlayerStats.tsx`. -/
structure PlayerStat where
  name : String
  totalMatches : Nat
  singlesMatches : Nat
  doublesMatches : Nat
  totalHours : Nat
  favoriteCourt : Nat
  lastPlayed : String
deriving DecidableEq, Repr

/-! ### Insertion-ordered maps (JavaScript `Map`) as association lists -/

/-- `Map.get`: value at the first matching key, if any. -/
def getA {κ ν : Type} [DecidableEq κ] : List (κ × ν) → κ → Option ν
  | [], _ => none
  | (k, v) :: rest, key => if k = key then some v else getA rest key

/-- `Map.set`: replace the value at an existing key in place, else
append the new entry at the end (JavaScript insertion order). -/
def setA {κ ν : Type} [DecidableEq κ] : List (κ × ν) → κ → ν → List (κ × ν)
  | [], key, val => [(key, val)]
  | (k, v) :: rest, key, val =>
      if k = key then (key, val) :: rest else (k, v) :: setA rest key val

/-! ### Character-level string helpers

JavaScript's `trim`, the `-`-splitting of ISO dates, and digit parsing
are modelled structurally over `List Char` so that every definition
evaluates by kernel reduction. -/

/-- ASCII whitespace, as relevant to the strings this app handles. -/
def isWs (c : Char) : Bool :=
  c == ' ' || c == '\t' || c == '\n' || c == '\r'

/-- JavaScript `String.prototype.trim`: drop leading and trailing
whitespace. -/
def jsTrim (s : String) : String :=
  String.mk (((s.data.dropWhile isWs).reverse.dropWhile isWs).reverse)

/-- Split a character list at every occurrence of a separator. -/
def splitOnChar (sep : Char) : List Char → List (List Char)
  | [] => [[]]
  | c :: cs =>
      match splitOnChar sep cs, c == sep with
      | r, true => [] :: r
      | [], false => [[c]]
      | g :: gs, false => (c :: g) :: gs

/-- Parse a non-empty all-digit character list as a decimal number. -/
def parseNat? (cs : List Char) : Option Nat :=
  if cs = [] then none
  else
    cs.foldl
      (fun acc c =>
        match acc with
        | none => none
        | some a => if c.isDigit then some (a * 10 + (c.toNat - 48)) else none)
      (some 0)

/-! ### Dates

`PlayerStats.tsx` compares dates with `new Date(a) > new Date(b)`.
For the ISO `YYYY-MM-DD` strings the application stores, that order is
the calendar order of the parsed (year, month, day) components; an
unparseable string behaves like `NaN`, for which every `>` comparison
is false.  `dateVal` embeds the parse, `dateAfter` the comparison. -/

/-- Parse an ISO `YYYY-MM-DD` string into its numeric components. -/
def parseDate (s : String) : Option (Nat × Nat × Nat) :=
  match (splitOnChar '-' s.data).map parseNat? with
  | [some y, some m, some d] => some (y, m, d)
  | _ => none

/-- Calendar-ordering key of a date string (year-major). -/
def dateVal (s : String) : Option Nat :=
  (parseDate s).map (fun x => x.1 * 10000 + x.2.1 * 100 + x.2.2)

/-- `new Date(a) > new Date(b)`: false whenever either side fails to
parse (`NaN` comparison semantics). -/
def dateAfter (a b : String) : Bool :=
  match dateVal a, dateVal b with
  | some x, some y => x > y
  | _, _ => false

/-! ### Pass 1 of `calculatePlayerStats` (grouping) -/

/-- `booking.type === 'singles' ? 1 : 2` (hours per match). -/
def matchDuration (t : BType) : Nat :=
  if t = BType.singles then 1 else 2

/-- The default `PlayerStat` created when a name is first seen
(source lines 50–58). -/
def initStat (name date : String) : PlayerStat :=
  { name := name, totalMatches := 0, singlesMatches := 0,
    doublesMatches := 0, totalHours := 0, favoriteCourt := 1,
    lastPlayed := date }

/-- The per-occurrence update of an accumulated `PlayerStat`
(source lines 60–72). -/
def updateStat (b : Booking) (st : PlayerStat) : PlayerStat :=
  let st1 := { st with totalMatches := st.totalMatches + 1,
                       totalHours := st.totalHours + matchDuration b.type }
  let st2 :=
    if b.type = BType.singles then
      { st1 with singlesMatches := st1.singlesMatches + 1 }
    else
      { st1 with doublesMatches := st1.doublesMatches + 1 }
  if dateAfter b.date st2.lastPlayed then { st2 with lastPlayed := b.date }
  else st2

/-- Body of `booking.players.forEach(playerName => ...)`: skip blank
names, otherwise fetch-or-create the entry and update it.  The map is
keyed by the raw (untrimmed) `playerName`, exactly as in the source. -/
def processPlayer (b : Booking) (m : List (String × PlayerStat))
    (p : String) : List (String × PlayerStat) :=
  if jsTrim p = "" then m
  else setA m p (updateStat b ((getA m p).getD (initStat p b.date)))

/-- Body of `bookings.forEach(booking => ...)` in pass 1. -/
def processBooking (m : List (String × PlayerStat)) (b : Booking) :
    List (String × PlayerStat) :=
  b.players.foldl (processPlayer b) m

/-- The `statsMap` produced by pass 1 over the whole collection. -/
def buildStats (bs : List Booking) : List (String × PlayerStat) :=
  bs.foldl processBooking []

/-! ### Pass 2 of `calculatePlayerStats` (favorite court) -/

/-- The `courtCounts` map of pass 2: per court, the number of bookings
whose `players` array `includes` the (raw) player name. -/
def courtCountsFor (bs : List Booking) (p : String) : List (Nat × Nat) :=
  bs.foldl
    (fun cc b =>
      if decide (p ∈ b.players) then
        setA cc b.court ((getA cc b.court).getD 0 + 1)
      else cc)
    []

/-- One step of the `courtCounts.forEach` fold of source lines 88–95:
the accumulator is the pair `(maxCount, favoriteCourt)`, replaced
whenever a tally strictly exceeds the running maximum. -/
def pickStep (acc pr : Nat × Nat) : Nat × Nat :=
  if pr.2 > acc.1 then (pr.2, pr.1) else acc

/-- The `courtCounts.forEach` fold of source lines 88–95: keep the
first court whose tally strictly exceeds the running maximum, with
`maxCount = 0` and `favoriteCourt = 1` initially. -/
def pickFavorite (cc : List (Nat × Nat)) : Nat :=
  (cc.foldl pickStep (0, 1)).2

/-- Favorite court of a (raw) player name over a booking collection. -/
def favoriteCourtFor (bs : List Booking) (p : String) : Nat :=
  pickFavorite (courtCountsFor bs p)

/-! ### Final sort and `calculatePlayerStats` -/

/-- One insertion step of the stable descending sort by
`totalMatches` (the semantics of
`.sort((a, b) => b.totalMatches - a.totalMatches)`). -/
def insertByMatches (x : PlayerStat) : List PlayerStat → List PlayerStat
  | [] => [x]
  | y :: ys =>
      if y.totalMatches ≤ x.totalMatches then x :: y :: ys
      else y :: insertByMatches x ys

/-- Stable sort, descending by `totalMatches`. -/
def sortByMatchesDesc (l : List PlayerStat) : List PlayerStat :=
  l.foldr insertByMatches []

/-- The whole `calculatePlayerStats`: pass 1, then the favorite-court
rewrite of every entry, then the sort over `Array.from(map.values())`
(insertion order). -/
def calculatePlayerStats (bs : List Booking) : List PlayerStat :=
  sortByMatchesDesc
    ((buildStats bs).map
      (fun kv => { kv.2 with favoriteCourt := favoriteCourtFor bs kv.1 }))

/-! ### Derived per-player accessors used to state the claims -/

/-- Occurrence count of a name over a collection: how many times pass 1
processes the name (one increment per occurrence in a `players` list). -/
def totalCount (bs : List Booking) (p : String) : Nat :=
  (bs.map (fun b => b.players.count p)).sum

/-- Duration-units accumulated for a name over a collection. -/
def hoursCount (bs : List Booking) (p : String) : Nat :=
  (bs.map (fun b => b.players.count p * matchDuration b.type)).sum

/-- Dates of the bookings whose `players` list contains the name. -/
def datesOf (bs : List Booking) (p : String) : List String :=
  (bs.filter (fun b => decide (p ∈ b.players))).map (fun b => b.date)

/-- Courts of the bookings whose `players` list contains the name, in
input order — the sequence pass 2 tallies. -/
def playerCourts (bs : List Booking) (p : String) : List Nat :=
  (bs.filter (fun b => decide (p ∈ b.players))).map (fun b => b.court)

/-- `totalMatches` stored for a name by pass 1 (0 when absent). -/
def playerTotalMatches (bs : List Booking) (p : String) : Nat :=
  ((getA (buildStats bs) p).map (fun st => st.totalMatches)).getD 0

/-- `totalHours` stored for a name by pass 1 (0 when absent). -/
def playerTotalHours (bs : List Booking) (p : String) : Nat :=
  ((getA (buildStats bs) p).map (fun st => st.totalHours)).getD 0

/-- Pass-2 tally of one court for one name (0 when absent). -/
def courtTallyFor (bs : List Booking) (p : String) (c : Nat) : Nat :=
  (getA (courtCountsFor bs p) c).getD 0

/-- Shorthand for building a booking in concrete examples. -/
def mkBooking (court : Nat) (players : List String) (ty : BType)
    (date : String) : Booking :=
  { id := "id", court := court, timeSlot := "slot", players := players,
    type := ty, date := date }

/-- A booking with the blank player entries removed. -/
def stripBlanks (b : Booking) : Booking :=
  { b with players := b.players.filter (fun p => jsTrim p ≠ "") }

/-- First occurrences of a sequence in order, skipping values already
in `seen` — the key order of a JavaScript `Map` filled by a scan. -/
def firstSeenAux (seen : List Nat) : List Nat → List Nat
  | [] => []
  | c :: cs =>
      if c ∈ seen then firstSeenAux seen cs
      else c :: firstSeenAux (c :: seen) cs

/-- Distinct values of a sequence in first-occurrence order. -/
def firstSeen (cs : List Nat) : List Nat :=
  firstSeenAux [] cs

/-- The per-value tally map built by scanning a sequence — the shape
`courtCountsFor` reduces to over the court sequence of one player. -/
def countsOf (cs : List Nat) : List (Nat × Nat) :=
  cs.foldl (fun cc c => setA cc c ((getA cc c).getD 0 + 1)) []

/-! ### Email notifications (`EmailNotifications` component)

`validateEmails` filters the entered addresses with
`/^[^\s@]+@[^\s@]+\.[^\s@]+$/` applied to the trimmed string;
`sendNotifications` rejects before any send when no address survives,
dispatches one send per surviving address, waits for all outcomes
(`Promise.allSettled`), and reports an aggregate failure count if any
send failed.  The per-recipient outcome is abstracted as a function
from the address to success/failure. -/

/-- The character class `[^\s@]` of the validation regex. -/
def isAddrChar (c : Char) : Bool :=
  !(isWs c) && c != '@'

/-- Whether `/^[^\s@]+@[^\s@]+\.[^\s@]+$/` matches a string: exactly
one `@`, a non-empty address-character run before it, and after it a
run that some split decomposes as `B.C` with `B`, `C` non-empty — that
is, a `.` that is neither the first nor the last character of the
domain part. -/
def emailRegexMatch (s : String) : Bool :=
  match splitOnChar '@' s.data with
  | [lp, dom] =>
      lp ≠ [] && lp.all isAddrChar && dom.all isAddrChar &&
      ((dom.drop 1).dropLast.contains '.')
  | _ => false

/-- `validateEmails`: keep the (untrimmed) entries whose trimmed form
is non-empty and matches the regex. -/
def validateEmails (emailAddresses : List String) : List String :=
  emailAddresses.filter
    (fun email => jsTrim email ≠ "" && emailRegexMatch (jsTrim email))

/-- The `sendStatus` state of the component after one dispatch. -/
inductive SendStatus where
  | success
  | error
deriving DecidableEq, Repr

/-- Observable outcome of one `sendNotifications` call: the resulting
status, the error message shown (empty on success), and the addresses
for which a send call was actually made. -/
structure NotifyOutcome where
  status : SendStatus
  errorMessage : String
  sentTo : List String
deriving DecidableEq, Repr

/-- `sendNotifications`, with the per-recipient send outcome supplied
as `sendOk` (true = the promise fulfilled). -/
def sendNotifications (emailAddresses : List String)
    (subject message : String) (sendOk : String → Bool) : NotifyOutcome :=
  let validEmails := validateEmails emailAddresses
  if validEmails.length = 0 then
    { status := SendStatus.error,
      errorMessage := "Please enter at least one valid email address.",
      sentTo := [] }
  else if jsTrim subject = "" || jsTrim message = "" then
    { status := SendStatus.error,
      errorMessage := "Please fill in both subject and message.",
      sentTo := [] }
  else
    let results := validEmails.map sendOk
    let failedCount := (results.filter (fun r => !r)).length
    if failedCount = 0 then
      { status := SendStatus.success, errorMessage := "",
        sentTo := validEmails }
    else
      { status := SendStatus.error,
        errorMessage := "Failed to send " ++ toString failedCount ++
          " out of " ++ toString validEmails.length ++ " emails.",
        sentTo := validEmails }

/-! ### Booking list updates (`App.tsx`) -/

/-- The cell being edited (`editingBooking`). -/
structure EditingCell where
  court : Nat
  timeSlot : String
  type : BType
deriving DecidableEq, Repr

/-- The `prev.filter(b => !(b.court === c && b.timeSlot === t))` step
shared by save and delete. -/
def removeCell (bs : List Booking) (court : Nat) (timeSlot : String) :
    List Booking :=
  bs.filter (fun b => !(decide (b.court = court ∧ b.timeSlot = timeSlot)))

/-- `handleSaveBooking` on the per-date booking list: drop blank
player inputs; with none left, remove the cell's booking, otherwise
replace it with a fresh booking. -/
def handleSaveBooking (bs : List Booking) (editing : EditingCell)
    (playerInputs : List String) (newId selectedDate : String) :
    List Booking :=
  let filteredPlayers := playerInputs.filter (fun p => jsTrim p ≠ "")
  if filteredPlayers.length = 0 then
    removeCell bs editing.court editing.timeSlot
  else
    removeCell bs editing.court editing.timeSlot ++
      [{ id := newId, court := editing.court, timeSlot := editing.timeSlot,
         players := filteredPlayers, type := editing.type,
         date := selectedDate }]

/-- `handleDeleteBooking` on the per-date booking list. -/
def handleDeleteBooking (bs : List Booking) (editing : EditingCell) :
    List Booking :=
  removeCell bs editing.court editing.timeSlot

/-- At most one booking per (court, timeSlot) pair. -/
def atMostOnePerCell (bs : List Booking) : Prop :=
  ∀ c t, ((bs.filter
    (fun b => decide (b.court = c ∧ b.timeSlot = t))).length ≤ 1)

/-! ## Association-list lemmas -/

theorem getA_setA_self {κ ν : Type} [DecidableEq κ]
    (m : List (κ × ν)) (k : κ) (v : ν) : getA (setA m k v) k = some v := by
  induction m with
  | nil => simp [getA, setA]
  | cons kv rest ih =>
      obtain ⟨k', v'⟩ := kv
      by_cases h : k' = k
      · simp [getA, setA, h]
      · simp [getA, setA, h, ih]

theorem getA_setA_ne {κ ν : Type} [DecidableEq κ]
    (m : List (κ × ν)) (k k' : κ) (v : ν) (hne : k' ≠ k) :
    getA (setA m k v) k' = getA m k' := by
  induction m with
  | nil =>
      show getA [(k, v)] k' = none
      rw [getA, if_neg (Ne.symm hne)]
      rfl
  | cons kv rest ih =>
      obtain ⟨k₀, v₀⟩ := kv
      by_cases h : k₀ = k
      · subst h
        rw [setA, if_pos rfl, getA, getA,
          if_neg (Ne.symm hne), if_neg (Ne.symm hne)]
      · rw [setA, if_neg h, getA, getA]
        by_cases h' : k₀ = k'
        · rw [if_pos h', if_pos h']
        · rw [if_neg h', if_neg h', ih]

theorem mem_setA {κ ν : Type} [DecidableEq κ]
    {m : List (κ × ν)} {k : κ} {v : ν} {x : κ × ν}
    (hx : x ∈ setA m k v) : x = (k, v) ∨ x ∈ m := by
  induction m with
  | nil => simpa [setA] using hx
  | cons kv rest ih =>
      obtain ⟨k₀, v₀⟩ := kv
      by_cases h : k₀ = k
      · rw [setA, if_pos h] at hx
        rcases List.mem_cons.mp hx with h1 | h1
        · exact Or.inl h1
        · exact Or.inr (List.mem_cons_of_mem _ h1)
      · rw [setA, if_neg h] at hx
        rcases List.mem_cons.mp hx with h1 | h1
        · exact Or.inr (List.mem_cons.mpr (Or.inl h1))
        · rcases ih h1 with h2 | h2
          · exact Or.inl h2
          · exact Or.inr (List.mem_cons_of_mem _ h2)

theorem setA_of_not_mem {κ ν : Type} [DecidableEq κ]
    {m : List (κ × ν)} {k : κ} (v : ν) (hk : k ∉ m.map Prod.fst) :
    setA m k v = m ++ [(k, v)] := by
  induction m with
  | nil => simp [setA]
  | cons kv rest ih =>
      obtain ⟨k₀, v₀⟩ := kv
      simp only [List.map_cons, List.mem_cons] at hk
      push_neg at hk
      rw [setA, if_neg (Ne.symm hk.1), ih hk.2]
      simp

theorem keys_setA_of_mem {κ ν : Type} [DecidableEq κ]
    {m : List (κ × ν)} {k : κ} (v : ν) (hk : k ∈ m.map Prod.fst) :
    (setA m k v).map Prod.fst = m.map Prod.fst := by
  induction m with
  | nil => simp at hk
  | cons kv rest ih =>
      obtain ⟨k₀, v₀⟩ := kv
      by_cases h : k₀ = k
      · simp [setA, h]
      · simp only [List.map_cons, List.mem_cons] at hk
        rcases hk with h1 | h1
        · exact absurd h1.symm h
        · simp [setA, if_neg h, ih h1]

theorem getA_isSome_iff {κ ν : Type} [DecidableEq κ]
    (m : List (κ × ν)) (k : κ) :
    (getA m k).isSome ↔ k ∈ m.map Prod.fst := by
  induction m with
  | nil => simp [getA]
  | cons kv rest ih =>
      obtain ⟨k₀, v₀⟩ := kv
      by_cases h : k₀ = k
      · simp [getA, h]
      · rw [getA, if_neg h, List.map_cons, List.mem_cons, ih]
        constructor
        · exact fun h1 => Or.inr h1
        · rintro (h1 | h1)
          · exact absurd h1.symm h
          · exact h1

theorem getA_mem {κ ν : Type} [DecidableEq κ]
    {m : List (κ × ν)} {k : κ} {v : ν} (h : getA m k = some v) :
    (k, v) ∈ m := by
  induction m with
  | nil => simp [getA] at h
  | cons kv rest ih =>
      obtain ⟨k₀, v₀⟩ := kv
      by_cases h' : k₀ = k
      · rw [getA, if_pos h'] at h
        injection h with h2
        subst h2
        subst h'
        exact List.mem_cons_self _ _
      · rw [getA, if_neg h'] at h
        exact List.mem_cons_of_mem _ (ih h)

theorem getA_map_pair {κ ν : Type} [DecidableEq κ]
    (cs : List κ) (f : κ → ν) (k : κ) :
    getA (cs.map (fun c => (c, f c))) k =
      if k ∈ cs then some (f k) else none := by
  induction cs with
  | nil => simp [getA]
  | cons c rest ih =>
      by_cases h : c = k
      · subst h
        simp [getA]
      · rw [List.map_cons, getA, if_neg h, ih]
        by_cases hm : k ∈ rest
        · simp [hm]
        · have hnc : k ∉ c :: rest := by
            rw [List.mem_cons]
            rintro (h1 | h1)
            · exact h h1.symm
            · exact hm h1
          simp [hm, hnc]

theorem setA_map_pair {κ ν : Type} [DecidableEq κ]
    (cs : List κ) (f : κ → ν) (k : κ) (v : ν)
    (hnd : cs.Nodup) (hk : k ∈ cs) :
    setA (cs.map (fun c => (c, f c))) k v =
      cs.map (fun c => (c, if c = k then v else f c)) := by
  induction cs with
  | nil => simp at hk
  | cons c rest ih =>
      rcases List.nodup_cons.mp hnd with ⟨hc, hndr⟩
      by_cases h : c = k
      · subst h
        rw [List.map_cons, List.map_cons, setA, if_pos rfl, List.cons_eq_cons]
        refine ⟨by simp, ?_⟩
        apply List.map_congr_left
        intro x hx
        have hxk : ¬x = c := fun hh => hc (hh ▸ hx)
        simp [hxk]
      · rcases List.mem_cons.mp hk with h1 | h1
        · exact absurd h1.symm h
        · rw [List.map_cons, List.map_cons, setA, if_neg h, ih hndr h1,
            List.cons_eq_cons]
          exact ⟨by simp [h], rfl⟩

/-! ## Sorting lemmas -/

theorem insertByMatches_perm (x : PlayerStat) (l : List PlayerStat) :
    (insertByMatches x l).Perm (x :: l) := by
  induction l with
  | nil => exact List.Perm.refl _
  | cons y ys ih =>
      rw [insertByMatches]
      by_cases h : y.totalMatches ≤ x.totalMatches
      · rw [if_pos h]
      · rw [if_neg h]
        exact (ih.cons y).trans (List.Perm.swap x y ys)

theorem sortByMatchesDesc_perm (l : List PlayerStat) :
    (sortByMatchesDesc l).Perm l := by
  induction l with
  | nil => exact List.Perm.refl _
  | cons x xs ih =>
      exact (insertByMatches_perm x _).trans (ih.cons x)

theorem insertByMatches_pairwise (x : PlayerStat) (l : List PlayerStat)
    (h : l.Pairwise (fun a b => b.totalMatches ≤ a.totalMatches)) :
    (insertByMatches x l).Pairwise
      (fun a b => b.totalMatches ≤ a.totalMatches) := by
  induction l with
  | nil => simp [insertByMatches]
  | cons y ys ih =>
      rcases List.pairwise_cons.mp h with ⟨hy, hys⟩
      rw [insertByMatches]
      by_cases hc : y.totalMatches ≤ x.totalMatches
      · rw [if_pos hc]
        refine List.Pairwise.cons ?_ h
        intro z hz
        rcases List.mem_cons.mp hz with rfl | hz'
        · exact hc
        · exact le_trans (hy z hz') hc
      · rw [if_neg hc]
        refine List.Pairwise.cons ?_ (ih hys)
        intro z hz
        rcases List.mem_cons.mp ((insertByMatches_perm x ys).mem_iff.mp hz)
          with rfl | hz'
        · exact Nat.le_of_lt (Nat.lt_of_not_le hc)
        · exact hy z hz'

theorem sortByMatchesDesc_pairwise (l : List PlayerStat) :
    (sortByMatchesDesc l).Pairwise
      (fun a b => b.totalMatches ≤ a.totalMatches) := by
  induction l with
  | nil => simp [sortByMatchesDesc]
  | cons x xs ih => exact insertByMatches_pairwise x _ ih

/-- C4: the output of `calculatePlayerStats` is sorted descending by
`totalMatches`; on a collection whose players accumulate totals
[3, 5, 1] in grouping order, the output totals read [5, 3, 1]. -/
theorem claim_C4 :
    (∀ bs : List Booking,
      (calculatePlayerStats bs).Pairwise
        (fun a b => b.totalMatches ≤ a.totalMatches)) ∧
    (calculatePlayerStats
        [mkBooking 1 ["A", "B"] BType.singles "2024-01-07",
         mkBooking 2 ["A", "B"] BType.singles "2024-01-07",
         mkBooking 3 ["A", "B"] BType.singles "2024-01-07",
         mkBooking 1 ["B"] BType.singles "2024-01-14",
         mkBooking 2 ["B", "C"] BType.doubles "2024-01-14"]).map
      (fun st => st.totalMatches) = [5, 3, 1] := by
  constructor
  · intro bs
    exact sortByMatchesDesc_pairwise _
  · decide

/-! ## Counting and date lemmas -/

theorem totalCount_append (bs : List Booking) (b : Booking) (k : String) :
    totalCount (bs ++ [b]) k = totalCount bs k + b.players.count k := by
  simp [totalCount]

theorem hoursCount_append (bs : List Booking) (b : Booking) (k : String) :
    hoursCount (bs ++ [b]) k =
      hoursCount bs k + b.players.count k * matchDuration b.type := by
  simp [hoursCount]

theorem datesOf_append (bs : List Booking) (b : Booking) (k : String) :
    datesOf (bs ++ [b]) k =
      datesOf bs k ++ (if k ∈ b.players then [b.date] else []) := by
  by_cases h : k ∈ b.players
  · simp [datesOf, List.filter_append, h]
  · simp [datesOf, List.filter_append, h]

theorem playerCourts_append (bs : List Booking) (b : Booking) (p : String) :
    playerCourts (bs ++ [b]) p =
      playerCourts bs p ++ (if p ∈ b.players then [b.court] else []) := by
  by_cases h : p ∈ b.players
  · simp [playerCourts, List.filter_append, h]
  · simp [playerCourts, List.filter_append, h]

theorem totalCount_eq_zero_iff (bs : List Booking) (k : String) :
    totalCount bs k = 0 ↔ ∀ b ∈ bs, k ∉ b.players := by
  rw [totalCount, List.sum_eq_zero_iff]
  constructor
  · intro h b hb
    rw [← List.count_eq_zero]
    exact h _ (List.mem_map_of_mem _ hb)
  · intro h x hx
    rcases List.mem_map.mp hx with ⟨b, hb, rfl⟩
    rw [List.count_eq_zero]
    exact h b hb

theorem hoursCount_eq_zero (bs : List Booking) (k : String)
    (h : totalCount bs k = 0) : hoursCount bs k = 0 := by
  rw [hoursCount, List.sum_eq_zero_iff]
  intro x hx
  rcases List.mem_map.mp hx with ⟨b, hb, rfl⟩
  have : k ∉ b.players := (totalCount_eq_zero_iff bs k).mp h b hb
  rw [List.count_eq_zero.mpr this, Nat.zero_mul]

theorem datesOf_eq_nil (bs : List Booking) (k : String)
    (h : totalCount bs k = 0) : datesOf bs k = [] := by
  rw [datesOf, List.map_eq_nil_iff, List.filter_eq_nil_iff]
  intro b hb
  simpa using (totalCount_eq_zero_iff bs k).mp h b hb

theorem totalCount_pos_iff (bs : List Booking) (k : String) :
    0 < totalCount bs k ↔ ∃ b ∈ bs, k ∈ b.players := by
  rw [Nat.pos_iff_ne_zero, Ne, totalCount_eq_zero_iff]
  push_neg
  rfl

theorem dateAfter_irrefl (d : String) : dateAfter d d = false := by
  unfold dateAfter
  cases dateVal d <;> simp

theorem dateAfter_trans_false {d cur new : String}
    (h1 : dateAfter d cur = false) (h2 : dateAfter new cur = true) :
    dateAfter d new = false := by
  unfold dateAfter at h1 h2 ⊢
  cases hd : dateVal d <;> cases hc : dateVal cur <;>
    cases hn : dateVal new <;> rw [hd, hc] at h1 <;> rw [hn, hc] at h2 <;>
    simp_all
  omega

/-! ## The pass-1 invariant -/

/-- The relationship pass 1 maintains between a map entry and the
bookings processed so far. -/
def statInv (bs : List Booking) (k : String) (st : PlayerStat) : Prop :=
  st.name = k ∧
  st.totalMatches = totalCount bs k ∧
  st.totalHours = hoursCount bs k ∧
  st.singlesMatches + st.doublesMatches = st.totalMatches ∧
  st.lastPlayed ∈ datesOf bs k ∧
  ∀ d ∈ datesOf bs k, dateAfter d st.lastPlayed = false

/-- The whole-map invariant of pass 1: every entry satisfies `statInv`
under a non-blank raw-name key, keys are distinct, and exactly the
names with at least one occurrence are present. -/
def mapInv (bs : List Booking) (m : List (String × PlayerStat)) : Prop :=
  (∀ kv ∈ m, jsTrim kv.1 ≠ "" ∧ statInv bs kv.1 kv.2) ∧
  (m.map Prod.fst).Nodup ∧
  ∀ p, jsTrim p ≠ "" → ((getA m p).isSome ↔ 0 < totalCount bs p)

theorem statInv_congr {bs bs' : List Booking} {k : String} {st : PlayerStat}
    (h : statInv bs k st)
    (h1 : totalCount bs' k = totalCount bs k)
    (h2 : hoursCount bs' k = hoursCount bs k)
    (h3 : datesOf bs' k = datesOf bs k) : statInv bs' k st := by
  obtain ⟨ha, hb, hc, hd, he, hf⟩ := h
  exact ⟨ha, h1 ▸ hb, h2 ▸ hc, hd, h3 ▸ he, h3 ▸ hf⟩

theorem updateStat_name (b : Booking) (st : PlayerStat) :
    (updateStat b st).name = st.name := by
  simp only [updateStat]
  split <;> split <;> rfl

theorem updateStat_totalMatches (b : Booking) (st : PlayerStat) :
    (updateStat b st).totalMatches = st.totalMatches + 1 := by
  simp only [updateStat]
  split <;> split <;> rfl

theorem updateStat_totalHours (b : Booking) (st : PlayerStat) :
    (updateStat b st).totalHours = st.totalHours + matchDuration b.type := by
  simp only [updateStat]
  split <;> split <;> rfl

theorem updateStat_sum (b : Booking) (st : PlayerStat) :
    (updateStat b st).singlesMatches + (updateStat b st).doublesMatches =
      st.singlesMatches + st.doublesMatches + 1 := by
  simp only [updateStat]
  split <;> split <;> simp <;> omega

theorem updateStat_lastPlayed (b : Booking) (st : PlayerStat) :
    (updateStat b st).lastPlayed =
      if dateAfter b.date st.lastPlayed then b.date else st.lastPlayed := by
  simp only [updateStat]
  split <;> split <;> simp_all

/-- Replacing the first key's value and the list's shape of `setA` on a
map with distinct keys: any element of the result is the fresh pair or
an untouched entry at a different key. -/
theorem mem_setA_nodup {κ ν : Type} [DecidableEq κ]
    {m : List (κ × ν)} {k : κ} {v : ν} {x : κ × ν}
    (hnd : (m.map Prod.fst).Nodup) (hx : x ∈ setA m k v) :
    x = (k, v) ∨ (x ∈ m ∧ x.1 ≠ k) := by
  induction m with
  | nil =>
      rcases List.mem_singleton.mp hx with rfl
      exact Or.inl rfl
  | cons kv rest ih =>
      obtain ⟨k₀, v₀⟩ := kv
      rw [List.map_cons, List.nodup_cons] at hnd
      by_cases h : k₀ = k
      · subst h
        rw [setA, if_pos rfl] at hx
        rcases List.mem_cons.mp hx with rfl | h1
        · exact Or.inl rfl
        · refine Or.inr ⟨List.mem_cons_of_mem _ h1, ?_⟩
          intro hk
          apply hnd.1
          rw [← hk]
          exact List.mem_map.mpr ⟨x, h1, rfl⟩
      · rw [setA, if_neg h] at hx
        rcases List.mem_cons.mp hx with rfl | h1
        · exact Or.inr ⟨List.mem_cons_self _ _, h⟩
        · rcases ih hnd.2 h1 with h2 | h2
          · exact Or.inl h2
          · exact Or.inr ⟨List.mem_cons_of_mem _ h2.1, h2.2⟩

theorem totalCount_append_players (bs : List Booking) (b : Booking)
    (ps : List String) (k : String) :
    totalCount (bs ++ [{ b with players := ps }]) k =
      totalCount bs k + ps.count k := by
  rw [totalCount_append]

theorem hoursCount_append_players (bs : List Booking) (b : Booking)
    (ps : List String) (k : String) :
    hoursCount (bs ++ [{ b with players := ps }]) k =
      hoursCount bs k + ps.count k * matchDuration b.type := by
  rw [hoursCount_append]

theorem datesOf_append_players (bs : List Booking) (b : Booking)
    (ps : List String) (k : String) :
    datesOf (bs ++ [{ b with players := ps }]) k =
      datesOf bs k ++ (if k ∈ ps then [b.date] else []) := by
  rw [datesOf_append]

theorem count_single_ne {α : Type} [DecidableEq α] {q k : α} (h : k ≠ q) :
    List.count k [q] = 0 := by
  rw [List.count_eq_zero]
  intro hmem
  exact h (List.mem_singleton.mp hmem)

theorem count_single_self {α : Type} [DecidableEq α] (q : α) :
    List.count q [q] = 1 := by
  rw [List.count_singleton', if_pos rfl]

theorem processPlayer_inv {bs : List Booking} {b : Booking}
    {ps : List String} {m : List (String × PlayerStat)} (q : String)
    (hm : mapInv (bs ++ [{ b with players := ps }]) m) :
    mapInv (bs ++ [{ b with players := ps ++ [q] }])
      (processPlayer b m q) := by
  obtain ⟨hent, hnd, hcomp⟩ := hm
  by_cases hq : jsTrim q = ""
  · rw [processPlayer, if_pos hq]
    refine ⟨?_, hnd, ?_⟩
    · intro kv hkv
      obtain ⟨hkb, hsi⟩ := hent kv hkv
      have hkq : kv.1 ≠ q := fun h => hkb (h ▸ hq)
      refine ⟨hkb, statInv_congr hsi ?_ ?_ ?_⟩
      · rw [totalCount_append_players, totalCount_append_players,
          List.count_append, count_single_ne hkq, Nat.add_zero]
      · rw [hoursCount_append_players, hoursCount_append_players,
          List.count_append, count_single_ne hkq, Nat.add_zero]
      · rw [datesOf_append_players, datesOf_append_players]
        have : (kv.1 ∈ ps ++ [q]) ↔ kv.1 ∈ ps := by
          rw [List.mem_append, List.mem_singleton]
          exact ⟨fun h => h.elim id (fun h1 => absurd h1 hkq),
            fun h => Or.inl h⟩
        rw [if_congr this rfl rfl]
    · intro p hp
      have hpq : p ≠ q := fun h => hp (h ▸ hq)
      rw [hcomp p hp, totalCount_append_players, totalCount_append_players,
        List.count_append, count_single_ne hpq, Nat.add_zero]
  · rw [processPlayer, if_neg hq]
    have hmem2 : q ∈ ps ++ [q] := List.mem_append_right _ (List.mem_singleton.mpr rfl)
    have hfresh : statInv (bs ++ [{ b with players := ps ++ [q] }]) q
        (updateStat b ((getA m q).getD (initStat q b.date))) := by
      cases hga : getA m q with
      | some st =>
          have hst : statInv (bs ++ [{ b with players := ps }]) q st :=
            (hent (q, st) (getA_mem hga)).2
          obtain ⟨hname, hTM, hTH, hSum, hLP, hUB⟩ := hst
          refine ⟨?_, ?_, ?_, ?_, ?_, ?_⟩
          · rw [Option.getD_some, updateStat_name]
            exact hname
          · rw [Option.getD_some, updateStat_totalMatches, hTM,
              totalCount_append_players bs b ps q,
              totalCount_append_players bs b (ps ++ [q]) q,
              List.count_append, count_single_self, Nat.add_assoc]
          · rw [Option.getD_some, updateStat_totalHours, hTH,
              hoursCount_append_players bs b ps q,
              hoursCount_append_players bs b (ps ++ [q]) q,
              List.count_append, count_single_self, Nat.add_mul,
              Nat.one_mul, Nat.add_assoc]
          · rw [Option.getD_some, updateStat_sum, hSum,
              updateStat_totalMatches]
          · rw [Option.getD_some, updateStat_lastPlayed,
              datesOf_append_players, if_pos hmem2]
            rw [datesOf_append_players] at hLP
            by_cases hda : dateAfter b.date st.lastPlayed = true
            · rw [if_pos hda]
              exact List.mem_append_right _ (List.mem_singleton.mpr rfl)
            · rw [if_neg hda]
              rcases List.mem_append.mp hLP with h1 | h1
              · exact List.mem_append_left _ h1
              · by_cases hps : q ∈ ps
                · rw [if_pos hps] at h1
                  exact List.mem_append_right _ h1
                · rw [if_neg hps] at h1
                  exact absurd h1 (List.not_mem_nil _)
          · intro d hd
            rw [Option.getD_some, updateStat_lastPlayed]
            rw [datesOf_append_players, if_pos hmem2, List.mem_append,
              List.mem_singleton] at hd
            have hdOld : d ∈ datesOf bs q → dateAfter d st.lastPlayed = false := by
              intro h1
              apply hUB
              rw [datesOf_append_players]
              exact List.mem_append_left _ h1
            by_cases hda : dateAfter b.date st.lastPlayed = true
            · rw [if_pos hda]
              rcases hd with h1 | h1
              · exact dateAfter_trans_false (hdOld h1) hda
              · rw [h1]
                exact dateAfter_irrefl _
            · rw [if_neg hda]
              rcases hd with h1 | h1
              · exact hdOld h1
              · rw [h1]
                simpa using hda
      | none =>
          have hzero : totalCount (bs ++ [{ b with players := ps }]) q = 0 := by
            have h1 := hcomp q hq
            rw [hga] at h1
            have h2 : ¬0 < totalCount
                (bs ++ [{ b with players := ps }]) q := by
              intro hpos
              have h3 := h1.mpr hpos
              simp at h3
            omega
          rw [totalCount_append_players] at hzero
          have hbs0 : totalCount bs q = 0 := by omega
          have hps0 : ps.count q = 0 := by omega
          refine ⟨?_, ?_, ?_, ?_, ?_, ?_⟩
          · rw [Option.getD_none, updateStat_name]
            rfl
          · rw [Option.getD_none, updateStat_totalMatches,
              totalCount_append_players bs b (ps ++ [q]) q,
              List.count_append, count_single_self, hbs0, hps0]
            simp [initStat]
          · rw [Option.getD_none, updateStat_totalHours,
              hoursCount_append_players bs b (ps ++ [q]) q,
              List.count_append, count_single_self, hps0,
              hoursCount_eq_zero bs q hbs0]
            simp [initStat]
          · rw [Option.getD_none, updateStat_sum, updateStat_totalMatches]
            rfl
          · rw [Option.getD_none, updateStat_lastPlayed]
            show (if dateAfter b.date b.date = true then b.date else b.date) ∈ _
            rw [ite_self, datesOf_append_players, if_pos hmem2,
              datesOf_eq_nil bs q hbs0, List.nil_append]
            exact List.mem_singleton.mpr rfl
          · intro d hd
            rw [datesOf_append_players, if_pos hmem2,
              datesOf_eq_nil bs q hbs0, List.nil_append,
              List.mem_singleton] at hd
            rw [Option.getD_none, updateStat_lastPlayed]
            show dateAfter d (if dateAfter b.date b.date = true then b.date else b.date) = false
            rw [ite_self, hd]
            exact dateAfter_irrefl _
    refine ⟨?_, ?_, ?_⟩
    · intro kv hkv
      rcases mem_setA_nodup hnd hkv with rfl | ⟨hkm, hkq⟩
      · exact ⟨hq, hfresh⟩
      · obtain ⟨hkb, hsi⟩ := hent kv hkm
        refine ⟨hkb, statInv_congr hsi ?_ ?_ ?_⟩
        · rw [totalCount_append_players, totalCount_append_players,
            List.count_append, count_single_ne hkq, Nat.add_zero]
        · rw [hoursCount_append_players, hoursCount_append_players,
            List.count_append, count_single_ne hkq, Nat.add_zero]
        · rw [datesOf_append_players, datesOf_append_players]
          have : (kv.1 ∈ ps ++ [q]) ↔ kv.1 ∈ ps := by
            rw [List.mem_append, List.mem_singleton]
            exact ⟨fun h => h.elim id (fun h1 => absurd h1 hkq),
              fun h => Or.inl h⟩
          rw [if_congr this rfl rfl]
    · cases hga : getA m q with
      | some st =>
          have : q ∈ m.map Prod.fst := by
            rw [← getA_isSome_iff, hga]
            rfl
          rw [keys_setA_of_mem _ this]
          exact hnd
      | none =>
          have hqm : q ∉ m.map Prod.fst := by
            rw [← getA_isSome_iff, hga]
            simp
          rw [setA_of_not_mem _ hqm, List.map_append]
          rw [List.nodup_append]
          refine ⟨hnd, by simp, ?_⟩
          intro x hx hx'
          apply hqm
          have hxq : x = q := by simpa using hx'
          rw [← hxq]
          exact hx
    · intro p hp
      by_cases hpq : p = q
      · rw [hpq, getA_setA_self]
        simp only [Option.isSome_some, true_iff]
        rw [totalCount_append_players bs b (ps ++ [q]) q,
          List.count_append, count_single_self]
        omega
      · rw [getA_setA_ne _ _ _ _ hpq, hcomp p hp,
          totalCount_append_players, totalCount_append_players,
          List.count_append, count_single_ne hpq, Nat.add_zero]

theorem processPlayers_inv (bs : List Booking) (b : Booking) :
    ∀ (qs ps : List String) (m : List (String × PlayerStat)),
    mapInv (bs ++ [{ b with players := ps }]) m →
    mapInv (bs ++ [{ b with players := ps ++ qs }])
      (qs.foldl (processPlayer b) m) := by
  intro qs
  induction qs with
  | nil =>
      intro ps m h
      simpa using h
  | cons q qs' ih =>
      intro ps m h
      have h1 := processPlayer_inv q h
      have h2 := ih (ps ++ [q]) (processPlayer b m q) h1
      rw [List.append_assoc] at h2
      simpa using h2

theorem mapInv_nilPlayers {bs : List Booking}
    {m : List (String × PlayerStat)} (b : Booking) (h : mapInv bs m) :
    mapInv (bs ++ [{ b with players := [] }]) m := by
  obtain ⟨hent, hnd, hcomp⟩ := h
  refine ⟨?_, hnd, ?_⟩
  · intro kv hkv
    obtain ⟨hkb, hsi⟩ := hent kv hkv
    refine ⟨hkb, statInv_congr hsi ?_ ?_ ?_⟩
    · rw [totalCount_append_players]
      simp
    · rw [hoursCount_append_players]
      simp
    · rw [datesOf_append_players]
      simp
  · intro p hp
    rw [hcomp p hp, totalCount_append_players]
    simp

theorem processBooking_inv {bs : List Booking}
    {m : List (String × PlayerStat)} (b : Booking) (h : mapInv bs m) :
    mapInv (bs ++ [b]) (processBooking m b) := by
  have h2 := processPlayers_inv bs b b.players [] m (mapInv_nilPlayers b h)
  simpa using h2

/-- The central pass-1 result: the whole-map invariant holds of the
`statsMap` built over any booking collection. -/
theorem buildStats_inv (bs : List Booking) : mapInv bs (buildStats bs) := by
  induction bs using List.reverseRecOn with
  | nil =>
      refine ⟨?_, ?_, ?_⟩
      · intro kv hkv
        simp [buildStats] at hkv
      · simp [buildStats]
      · intro p _
        simp [buildStats, getA, totalCount]
  | append_singleton bs b ih =>
      have h2 := processBooking_inv b ih
      rw [buildStats, List.foldl_append]
      exact h2

/-! ## From the invariant to `calculatePlayerStats` -/

theorem mem_calculatePlayerStats {bs : List Booking} {st : PlayerStat} :
    st ∈ calculatePlayerStats bs ↔
      ∃ kv ∈ buildStats bs,
        st = { kv.2 with favoriteCourt := favoriteCourtFor bs kv.1 } := by
  rw [calculatePlayerStats, (sortByMatchesDesc_perm _).mem_iff, List.mem_map]
  constructor
  · rintro ⟨kv, hkv, rfl⟩
    exact ⟨kv, hkv, rfl⟩
  · rintro ⟨kv, hkv, rfl⟩
    exact ⟨kv, hkv, rfl⟩

theorem sum_split {l : List PlayerStat}
    (h : ∀ st ∈ l, st.singlesMatches + st.doublesMatches = st.totalMatches) :
    (l.map (fun st => st.singlesMatches)).sum +
      (l.map (fun st => st.doublesMatches)).sum =
      (l.map (fun st => st.totalMatches)).sum := by
  induction l with
  | nil => rfl
  | cons x xs ih =>
      simp only [List.map_cons, List.sum_cons]
      have hx := h x (List.mem_cons_self _ _)
      have hxs := ih (fun st hst => h st (List.mem_cons_of_mem _ hst))
      omega

/-- C5: every output record satisfies
`singlesMatches + doublesMatches = totalMatches`, and consequently the
sums over the whole output agree. -/
theorem claim_C5 (bs : List Booking) :
    (∀ st ∈ calculatePlayerStats bs,
      st.singlesMatches + st.doublesMatches = st.totalMatches) ∧
    ((calculatePlayerStats bs).map (fun st => st.singlesMatches)).sum +
      ((calculatePlayerStats bs).map (fun st => st.doublesMatches)).sum =
      ((calculatePlayerStats bs).map (fun st => st.totalMatches)).sum := by
  have hmem : ∀ st ∈ calculatePlayerStats bs,
      st.singlesMatches + st.doublesMatches = st.totalMatches := by
    intro st hst
    rcases mem_calculatePlayerStats.mp hst with ⟨kv, hkv, rfl⟩
    exact ((buildStats_inv bs).1 kv hkv).2.2.2.2.1
  exact ⟨hmem, sum_split hmem⟩

/-- Witness for `claim_C5` at a concrete collection. -/
theorem claim_C5_witness :
    ∃ st ∈ calculatePlayerStats
      [mkBooking 1 ["Ann", "Ben"] BType.singles "2024-01-07"],
      st.singlesMatches + st.doublesMatches = st.totalMatches := by
  refine ⟨{ name := "Ann", totalMatches := 1, singlesMatches := 1,
            doublesMatches := 0, totalHours := 1, favoriteCourt := 1,
            lastPlayed := "2024-01-07" }, by decide, ?_⟩
  exact (claim_C5 [mkBooking 1 ["Ann", "Ben"] BType.singles "2024-01-07"]).1
    _ (by decide)

/-- C1 counterexample: the two entries `"Alice"` and `" Alice"` have
identical trimmed names yet produce two distinct `PlayerStat` records,
because the grouping key is the raw (untrimmed) name. -/
theorem claim_C1_counterexample :
    jsTrim " Alice" = jsTrim "Alice" ∧
    (calculatePlayerStats
        [mkBooking 1 ["Alice", " Alice"] BType.singles "2024-01-07"]).map
      (fun st => st.name) = ["Alice", " Alice"] := by
  exact ⟨by decide, by decide⟩

/-- C1 (amended): two player entries contribute to the same
`PlayerStat` iff their raw name strings are identical — the output
carries exactly one record per distinct raw non-blank name. -/
theorem claim_C1_amended (bs : List Booking) (p : String) :
    ((calculatePlayerStats bs).map (fun st => st.name)).Nodup ∧
    (jsTrim p ≠ "" →
      ((∃ b ∈ bs, p ∈ b.players) ↔
        ∃ st ∈ calculatePlayerStats bs, st.name = p)) := by
  obtain ⟨hent, hnd, hcomp⟩ := buildStats_inv bs
  have hperm : (calculatePlayerStats bs).map (fun st => st.name) =
      (sortByMatchesDesc ((buildStats bs).map
        (fun kv => { kv.2 with favoriteCourt := favoriteCourtFor bs kv.1 }))).map
        (fun st => st.name) := rfl
  have hnames : ((buildStats bs).map
      (fun kv => ({ kv.2 with
        favoriteCourt := favoriteCourtFor bs kv.1 } : PlayerStat))).map
      (fun st => st.name) = (buildStats bs).map Prod.fst := by
    rw [List.map_map]
    apply List.map_congr_left
    intro kv hkv
    exact (hent kv hkv).2.1
  constructor
  · rw [hperm]
    have h2 := (sortByMatchesDesc_perm ((buildStats bs).map
      (fun kv => { kv.2 with
        favoriteCourt := favoriteCourtFor bs kv.1 }))).map
      (fun st => st.name)
    rw [h2.nodup_iff, hnames]
    exact hnd
  · intro hp
    rw [← totalCount_pos_iff, ← hcomp p hp, getA_isSome_iff]
    constructor
    · intro hkeys
      rcases List.mem_map.mp hkeys with ⟨kv, hkv, rfl⟩
      refine ⟨{ kv.2 with favoriteCourt := favoriteCourtFor bs kv.1 },
        mem_calculatePlayerStats.mpr ⟨kv, hkv, rfl⟩, ?_⟩
      exact (hent kv hkv).2.1
    · rintro ⟨st, hst, hname⟩
      rcases mem_calculatePlayerStats.mp hst with ⟨kv, hkv, rfl⟩
      rw [← hname]
      have : ({ kv.2 with
          favoriteCourt := favoriteCourtFor bs kv.1 } : PlayerStat).name
          = kv.1 := (hent kv hkv).2.1
      rw [this]
      exact List.mem_map.mpr ⟨kv, hkv, rfl⟩

/-- Witness for `claim_C1_amended`. -/
theorem claim_C1_amended_witness :
    (∃ b ∈ [mkBooking 1 ["Alice", " Alice"] BType.singles "2024-01-07"],
      "Alice" ∈ b.players) ↔
    ∃ st ∈ calculatePlayerStats
      [mkBooking 1 ["Alice", " Alice"] BType.singles "2024-01-07"],
      st.name = "Alice" :=
  (claim_C1_amended
    [mkBooking 1 ["Alice", " Alice"] BType.singles "2024-01-07"]
    "Alice").2 (by decide)

/-! ## Dates: claim C3 -/

theorem mem_datesOf {bs : List Booking} {p d : String} :
    d ∈ datesOf bs p ↔ ∃ b ∈ bs, p ∈ b.players ∧ b.date = d := by
  simp only [datesOf, List.mem_map, List.mem_filter, decide_eq_true_eq]
  tauto

theorem dateAfter_false_le {a b : String} {x y : Nat}
    (ha : dateVal a = some x) (hb : dateVal b = some y)
    (h : dateAfter a b = false) : x ≤ y := by
  unfold dateAfter at h
  rw [ha, hb] at h
  simpa using h

/-- C3: under parseable dates, every output record's `lastPlayed` is
one of its player's booking dates and is maximal among them under
calendar-date order. -/
theorem claim_C3 (bs : List Booking)
    (hdates : ∀ b ∈ bs, (dateVal b.date).isSome) :
    ∀ st ∈ calculatePlayerStats bs,
      st.lastPlayed ∈ datesOf bs st.name ∧
      ∀ d ∈ datesOf bs st.name,
        (dateVal d).getD 0 ≤ (dateVal st.lastPlayed).getD 0 := by
  intro st hst
  rcases mem_calculatePlayerStats.mp hst with ⟨kv, hkv, rfl⟩
  have hsi := ((buildStats_inv bs).1 kv hkv).2
  obtain ⟨hname, _, _, _, hLP, hUB⟩ := hsi
  have hshow : ({ kv.2 with
      favoriteCourt := favoriteCourtFor bs kv.1 } : PlayerStat).name
      = kv.1 := hname
  rw [hshow]
  have hlp2 : ({ kv.2 with
      favoriteCourt := favoriteCourtFor bs kv.1 } : PlayerStat).lastPlayed
      = kv.2.lastPlayed := rfl
  rw [hlp2]
  refine ⟨hLP, ?_⟩
  intro d hd
  have hdv : (dateVal d).isSome := by
    rcases mem_datesOf.mp hd with ⟨b, hb, _, rfl⟩
    exact hdates b hb
  have hlv : (dateVal kv.2.lastPlayed).isSome := by
    rcases mem_datesOf.mp hLP with ⟨b, hb, _, hbd⟩
    rw [← hbd]
    exact hdates b hb
  rcases Option.isSome_iff_exists.mp hdv with ⟨x, hx⟩
  rcases Option.isSome_iff_exists.mp hlv with ⟨y, hy⟩
  rw [hx, hy]
  exact dateAfter_false_le hx hy (hUB d hd)

/-- Witness for `claim_C3`: the year-boundary example. -/
theorem claim_C3_witness :
    ("2023-12-30" ∈ datesOf
        [mkBooking 1 ["Bob"] BType.singles "2023-12-30",
         mkBooking 2 ["Bob"] BType.doubles "2024-01-05"] "Bob" →
      (dateVal "2023-12-30").getD 0 ≤ (dateVal "2024-01-05").getD 0) ∧
    (calculatePlayerStats
        [mkBooking 1 ["Bob"] BType.singles "2023-12-30",
         mkBooking 2 ["Bob"] BType.doubles "2024-01-05"]).map
      (fun st => st.lastPlayed) = ["2024-01-05"] := by
  constructor
  · intro hd
    have h := claim_C3
      [mkBooking 1 ["Bob"] BType.singles "2023-12-30",
       mkBooking 2 ["Bob"] BType.doubles "2024-01-05"]
      (by decide)
      { name := "Bob", totalMatches := 2, singlesMatches := 1,
        doublesMatches := 1, totalHours := 3, favoriteCourt := 1,
        lastPlayed := "2024-01-05" } (by decide)
    exact h.2 "2023-12-30" (by decide)
  · decide

/-! ## Per-name accessors: claim C9 -/

theorem playerTotalMatches_eq (bs : List Booking) (p : String)
    (hp : jsTrim p ≠ "") : playerTotalMatches bs p = totalCount bs p := by
  obtain ⟨hent, _, hcomp⟩ := buildStats_inv bs
  rw [playerTotalMatches]
  cases hga : getA (buildStats bs) p with
  | none =>
      have h1 := hcomp p hp
      rw [hga] at h1
      have h2 : ¬0 < totalCount bs p := by
        intro hpos
        have h3 := h1.mpr hpos
        simp at h3
      simp only [Option.map_none', Option.getD_none]
      omega
  | some st =>
      have hst : statInv bs p st := (hent (p, st) (getA_mem hga)).2
      simp only [Option.map_some', Option.getD_some]
      exact hst.2.1

theorem playerTotalHours_eq (bs : List Booking) (p : String)
    (hp : jsTrim p ≠ "") : playerTotalHours bs p = hoursCount bs p := by
  obtain ⟨hent, _, hcomp⟩ := buildStats_inv bs
  rw [playerTotalHours]
  cases hga : getA (buildStats bs) p with
  | none =>
      have h1 := hcomp p hp
      rw [hga] at h1
      have h2 : ¬0 < totalCount bs p := by
        intro hpos
        have h3 := h1.mpr hpos
        simp at h3
      have h0 : totalCount bs p = 0 := by omega
      simp only [Option.map_none', Option.getD_none]
      rw [hoursCount_eq_zero bs p h0]
  | some st =>
      have hst : statInv bs p st := (hent (p, st) (getA_mem hga)).2
      simp only [Option.map_some', Option.getD_some]
      exact hst.2.2.1

theorem courtCountsFor_append (bs : List Booking) (b : Booking)
    (p : String) :
    courtCountsFor (bs ++ [b]) p =
      if decide (p ∈ b.players) then
        setA (courtCountsFor bs p) b.court
          ((getA (courtCountsFor bs p) b.court).getD 0 + 1)
      else courtCountsFor bs p := by
  rw [courtCountsFor, List.foldl_append]
  rfl

/-- C9: a name occurring `k > 1` times in one booking's players list is
counted `k` times by the grouping pass (totalMatches and duration
accounting) but only once by the favorite-court tally of that booking's
court. -/
theorem claim_C9 (bs : List Booking) (b : Booking) (p : String) (k : Nat)
    (hp : jsTrim p ≠ "") (hk : b.players.count p = k) (hk1 : 1 < k) :
    playerTotalMatches (bs ++ [b]) p = playerTotalMatches bs p + k ∧
    playerTotalHours (bs ++ [b]) p =
      playerTotalHours bs p + k * matchDuration b.type ∧
    courtTallyFor (bs ++ [b]) p b.court =
      courtTallyFor bs p b.court + 1 := by
  have hmem : p ∈ b.players := by
    rw [← List.count_pos_iff, hk]
    omega
  refine ⟨?_, ?_, ?_⟩
  · rw [playerTotalMatches_eq _ _ hp, playerTotalMatches_eq _ _ hp,
      totalCount_append, hk]
  · rw [playerTotalHours_eq _ _ hp, playerTotalHours_eq _ _ hp,
      hoursCount_append, hk]
  · rw [courtTallyFor, courtTallyFor, courtCountsFor_append,
      if_pos (decide_eq_true hmem), getA_setA_self, Option.getD_some]

/-- Witness for `claim_C9`: a doubles booking listing "Dan" twice. -/
theorem claim_C9_witness :
    playerTotalMatches [mkBooking 2 ["Dan", "Dan"] BType.doubles "2024-01-07"]
        "Dan" = playerTotalMatches [] "Dan" + 2 ∧
    playerTotalHours [mkBooking 2 ["Dan", "Dan"] BType.doubles "2024-01-07"]
        "Dan" = playerTotalHours [] "Dan" + 2 * matchDuration BType.doubles ∧
    courtTallyFor [mkBooking 2 ["Dan", "Dan"] BType.doubles "2024-01-07"]
        "Dan" 2 = courtTallyFor [] "Dan" 2 + 1 := by
  have h := claim_C9 [] (mkBooking 2 ["Dan", "Dan"] BType.doubles "2024-01-07")
    "Dan" 2 (by decide) (by decide) (by decide)
  simpa using h

/-! ## Blank entries contribute nothing: claim C6 -/

theorem foldl_processPlayer_filter (c : Booking) :
    ∀ (ps : List String) (m : List (String × PlayerStat)),
    (ps.filter (fun p => jsTrim p ≠ "")).foldl (processPlayer c) m =
      ps.foldl (processPlayer c) m := by
  intro ps
  induction ps with
  | nil =>
      intro m
      rfl
  | cons p ps' ih =>
      intro m
      by_cases hp : jsTrim p = ""
      · rw [List.filter_cons]
        have h1 : (decide (jsTrim p ≠ "")) = false := by simp [hp]
        rw [h1]
        simp only [Bool.false_eq_true, if_false]
        rw [List.foldl_cons, processPlayer, if_pos hp]
        exact ih m
      · rw [List.filter_cons]
        have h1 : (decide (jsTrim p ≠ "")) = true := by simp [hp]
        rw [h1]
        simp only [if_true]
        rw [List.foldl_cons, List.foldl_cons]
        exact ih _

theorem processBooking_strip (m : List (String × PlayerStat))
    (b : Booking) : processBooking m (stripBlanks b) = processBooking m b := by
  have h2 : processPlayer (stripBlanks b) = processPlayer b := rfl
  rw [processBooking, processBooking]
  have h1 : (stripBlanks b).players =
      b.players.filter (fun p => jsTrim p ≠ "") := rfl
  rw [h1, h2]
  exact foldl_processPlayer_filter b b.players m

theorem buildStats_filter (bs : List Booking) :
    buildStats (bs.map stripBlanks) = buildStats bs := by
  induction bs using List.reverseRecOn with
  | nil => rfl
  | append_singleton bs b ih =>
      rw [List.map_append, buildStats, buildStats, List.foldl_append,
        List.foldl_append]
      show processBooking (buildStats (bs.map stripBlanks)) (stripBlanks b)
        = processBooking (buildStats bs) b
      rw [ih, processBooking_strip]

theorem courtCountsFor_strip (bs : List Booking) (p : String)
    (hp : jsTrim p ≠ "") :
    courtCountsFor (bs.map stripBlanks) p = courtCountsFor bs p := by
  induction bs using List.reverseRecOn with
  | nil => rfl
  | append_singleton bs b ih =>
      rw [List.map_append]
      show courtCountsFor (bs.map stripBlanks ++ [stripBlanks b]) p = _
      rw [courtCountsFor_append, courtCountsFor_append, ih]
      have hmem : (p ∈ (stripBlanks b).players) ↔ p ∈ b.players := by
        simp [stripBlanks, List.mem_filter, hp]
      by_cases h : p ∈ b.players
      · rw [decide_eq_true (hmem.mpr h), decide_eq_true h]
        rfl
      · rw [decide_eq_false (fun hc => h (hmem.mp hc)), decide_eq_false h]
        simp only [Bool.false_eq_true, if_false]

theorem processBooking_blank {m : List (String × PlayerStat)} {b : Booking}
    (hall : ∀ p ∈ b.players, jsTrim p = "") : processBooking m b = m := by
  rw [processBooking]
  have haux : ∀ (ps : List String), (∀ p ∈ ps, jsTrim p = "") →
      ∀ m' : List (String × PlayerStat),
      ps.foldl (processPlayer b) m' = m' := by
    intro ps
    induction ps with
    | nil =>
        intro _ m'
        rfl
    | cons p ps' ih =>
        intro h m'
        rw [List.foldl_cons, processPlayer,
          if_pos (h p (List.mem_cons_self _ _))]
        exact ih (fun r hr => h r (List.mem_cons_of_mem _ hr)) m'
  exact haux b.players hall m

theorem buildStats_middle_blank (bs₁ bs₂ : List Booking) (b : Booking)
    (hall : ∀ p ∈ b.players, jsTrim p = "") :
    buildStats (bs₁ ++ b :: bs₂) = buildStats (bs₁ ++ bs₂) := by
  rw [buildStats, buildStats, List.foldl_append, List.foldl_append,
    List.foldl_cons]
  rw [show List.foldl processBooking [] bs₁ = buildStats bs₁ from rfl,
    processBooking_blank hall]

theorem courtCountsFor_middle_blank (bs₁ bs₂ : List Booking) (b : Booking)
    (p : String) (hp : jsTrim p ≠ "")
    (hall : ∀ r ∈ b.players, jsTrim r = "") :
    courtCountsFor (bs₁ ++ b :: bs₂) p = courtCountsFor (bs₁ ++ bs₂) p := by
  rw [courtCountsFor, courtCountsFor, List.foldl_append, List.foldl_append,
    List.foldl_cons]
  rw [decide_eq_false (fun hmem => hp (hall p hmem))]
  simp only [Bool.false_eq_true, if_false]

theorem calculatePlayerStats_congr {bs bs' : List Booking}
    (hB : buildStats bs' = buildStats bs)
    (hF : ∀ p, jsTrim p ≠ "" →
      favoriteCourtFor bs' p = favoriteCourtFor bs p) :
    calculatePlayerStats bs' = calculatePlayerStats bs := by
  rw [calculatePlayerStats, calculatePlayerStats, hB]
  congr 1
  apply List.map_congr_left
  intro kv hkv
  have hk : jsTrim kv.1 ≠ "" := ((buildStats_inv bs).1 kv hkv).1
  rw [hF kv.1 hk]

/-- C6: blank player entries are invisible to the aggregation — the
output is unchanged by dropping them, and a booking whose player list
is entirely blank contributes no entries and no counts. -/
theorem claim_C6 :
    (∀ bs : List Booking,
      calculatePlayerStats (bs.map stripBlanks) = calculatePlayerStats bs) ∧
    (∀ (bs₁ bs₂ : List Booking) (b : Booking),
      (∀ p ∈ b.players, jsTrim p = "") →
      calculatePlayerStats (bs₁ ++ b :: bs₂) =
        calculatePlayerStats (bs₁ ++ bs₂)) := by
  constructor
  · intro bs
    exact calculatePlayerStats_congr (buildStats_filter bs)
      (fun p hp => congrArg pickFavorite (courtCountsFor_strip bs p hp))
  · intro bs₁ bs₂ b hall
    exact calculatePlayerStats_congr (buildStats_middle_blank bs₁ bs₂ b hall)
      (fun p hp => congrArg pickFavorite
        (courtCountsFor_middle_blank bs₁ bs₂ b p hp hall))

/-- Witness for `claim_C6`: an all-blank booking drops out. -/
theorem claim_C6_witness :
    calculatePlayerStats
        [mkBooking 1 ["Ann"] BType.singles "2024-01-07",
         mkBooking 2 ["", " "] BType.doubles "2024-01-07"] =
      calculatePlayerStats [mkBooking 1 ["Ann"] BType.singles "2024-01-07"] :=
  claim_C6.2 [mkBooking 1 ["Ann"] BType.singles "2024-01-07"] []
    (mkBooking 2 ["", " "] BType.doubles "2024-01-07") (by decide)

/-! ## The favorite-court pass: claim C2 -/

theorem playerCourts_cons_mem {b : Booking} {bs : List Booking}
    {p : String} (h : p ∈ b.players) :
    playerCourts (b :: bs) p = b.court :: playerCourts bs p := by
  simp [playerCourts, List.filter_cons, h]

theorem playerCourts_cons_not_mem {b : Booking} {bs : List Booking}
    {p : String} (h : p ∉ b.players) :
    playerCourts (b :: bs) p = playerCourts bs p := by
  simp [playerCourts, List.filter_cons, h]

/-- Pass 2's tally fold over the bookings is the tally fold over the
player's court sequence. -/
theorem courtCountsFor_eq_countsOf (bs : List Booking) (p : String) :
    courtCountsFor bs p = countsOf (playerCourts bs p) := by
  suffices h : ∀ (l : List Booking) (cc : List (Nat × Nat)),
      l.foldl
        (fun cc b =>
          if decide (p ∈ b.players) then
            setA cc b.court ((getA cc b.court).getD 0 + 1)
          else cc) cc =
      (playerCourts l p).foldl
        (fun cc c => setA cc c ((getA cc c).getD 0 + 1)) cc by
    exact h bs []
  intro l
  induction l with
  | nil =>
      intro cc
      rfl
  | cons b l' ih =>
      intro cc
      by_cases h : p ∈ b.players
      · rw [List.foldl_cons, playerCourts_cons_mem h, List.foldl_cons,
          decide_eq_true h]
        simp only [if_true]
        exact ih _
      · rw [List.foldl_cons, playerCourts_cons_not_mem h, decide_eq_false h]
        simp only [Bool.false_eq_true, if_false]
        exact ih cc

theorem mem_firstSeenAux : ∀ (l seen : List Nat) (x : Nat),
    x ∈ firstSeenAux seen l ↔ x ∈ l ∧ x ∉ seen := by
  intro l
  induction l with
  | nil =>
      intro seen x
      simp [firstSeenAux]
  | cons c cs ih =>
      intro seen x
      rw [firstSeenAux]
      by_cases h : c ∈ seen
      · rw [if_pos h, ih, List.mem_cons]
        constructor
        · rintro ⟨h1, h2⟩
          exact ⟨Or.inr h1, h2⟩
        · rintro ⟨h1, h2⟩
          rcases h1 with rfl | h1
          · exact absurd h h2
          · exact ⟨h1, h2⟩
      · rw [if_neg h]
        constructor
        · intro h1
          rcases List.mem_cons.mp h1 with rfl | h1
          · exact ⟨List.mem_cons_self _ _, h⟩
          · rcases (ih (c :: seen) x).mp h1 with ⟨h2, h3⟩
            exact ⟨List.mem_cons_of_mem _ h2,
              fun hs => h3 (List.mem_cons_of_mem _ hs)⟩
        · rintro ⟨h1, h2⟩
          by_cases hxc : x = c
          · subst hxc
            exact List.mem_cons_self _ _
          · rcases List.mem_cons.mp h1 with h3 | h3
            · exact absurd h3 hxc
            · refine List.mem_cons_of_mem _ ((ih (c :: seen) x).mpr ⟨h3, ?_⟩)
              intro h4
              rcases List.mem_cons.mp h4 with h5 | h5
              · exact hxc h5
              · exact h2 h5

theorem nodup_firstSeenAux : ∀ (l seen : List Nat),
    (firstSeenAux seen l).Nodup := by
  intro l
  induction l with
  | nil =>
      intro seen
      simp [firstSeenAux]
  | cons c cs ih =>
      intro seen
      rw [firstSeenAux]
      by_cases h : c ∈ seen
      · rw [if_pos h]
        exact ih seen
      · rw [if_neg h, List.nodup_cons]
        refine ⟨?_, ih _⟩
        intro hc
        rcases (mem_firstSeenAux cs (c :: seen) c).mp hc with ⟨_, h2⟩
        exact h2 (List.mem_cons_self _ _)

theorem firstSeenAux_append_single : ∀ (l seen : List Nat) (c : Nat),
    firstSeenAux seen (l ++ [c]) =
      firstSeenAux seen l ++ (if c ∈ seen ∨ c ∈ l then [] else [c]) := by
  intro l
  induction l with
  | nil =>
      intro seen c
      by_cases h : c ∈ seen
      · simp [firstSeenAux, h]
      · simp [firstSeenAux, h]
  | cons a l' ih =>
      intro seen c
      rw [List.cons_append, firstSeenAux, firstSeenAux]
      by_cases h : a ∈ seen
      · rw [if_pos h, if_pos h, ih]
        have hcond : (c ∈ seen ∨ c ∈ l') ↔ (c ∈ seen ∨ c ∈ a :: l') := by
          rw [List.mem_cons]
          constructor
          · rintro (h1 | h1)
            · exact Or.inl h1
            · exact Or.inr (Or.inr h1)
          · rintro (h1 | rfl | h1)
            · exact Or.inl h1
            · exact Or.inl h
            · exact Or.inr h1
        rw [if_congr hcond rfl rfl]
      · rw [if_neg h, if_neg h, ih, List.cons_append]
        have hcond : (c ∈ a :: seen ∨ c ∈ l') ↔ (c ∈ seen ∨ c ∈ a :: l') := by
          rw [List.mem_cons, List.mem_cons]
          tauto
        rw [if_congr hcond rfl rfl]

theorem keys_map_pair {α β : Type} (cs : List α) (f : α → β) :
    (cs.map (fun c => (c, f c))).map Prod.fst = cs := by
  rw [List.map_map]
  exact List.map_id _

theorem mem_firstSeen (s : List Nat) (x : Nat) :
    x ∈ firstSeen s ↔ x ∈ s := by
  rw [firstSeen, mem_firstSeenAux]
  simp

theorem firstSeen_nodup (s : List Nat) : (firstSeen s).Nodup :=
  nodup_firstSeenAux s []

theorem firstSeen_append_single (s : List Nat) (c : Nat) :
    firstSeen (s ++ [c]) = firstSeen s ++ (if c ∈ s then [] else [c]) := by
  rw [firstSeen, firstSeenAux_append_single]
  have hcond : (c ∈ ([] : List Nat) ∨ c ∈ s) ↔ c ∈ s := by simp
  rw [if_congr hcond rfl rfl]
  rfl

/-- The tally map over a sequence is the first-occurrence key list
paired with the occurrence counts. -/
theorem countsOf_eq_canonical (s : List Nat) :
    countsOf s = (firstSeen s).map (fun c => (c, s.count c)) := by
  induction s using List.reverseRecOn with
  | nil => rfl
  | append_singleton s c ih =>
      have hstep : countsOf (s ++ [c]) =
          setA (countsOf s) c ((getA (countsOf s) c).getD 0 + 1) := by
        rw [countsOf, List.foldl_append]
        rfl
      rw [hstep, ih, getA_map_pair, firstSeen_append_single]
      by_cases h : c ∈ s
      · have hfs : c ∈ firstSeen s := (mem_firstSeen s c).mpr h
        rw [if_pos hfs, Option.getD_some,
          setA_map_pair _ _ _ _ (firstSeen_nodup s) hfs,
          if_pos h, List.append_nil]
        apply List.map_congr_left
        intro x _
        by_cases hxc : x = c
        · subst hxc
          rw [if_pos rfl, List.count_append, count_single_self]
        · rw [if_neg hxc, List.count_append, count_single_ne hxc,
            Nat.add_zero]
      · have hfs : c ∉ firstSeen s := fun hc => h ((mem_firstSeen s c).mp hc)
        rw [if_neg hfs, Option.getD_none,
          setA_of_not_mem _ (by rw [keys_map_pair]; exact hfs),
          if_neg h, List.map_append]
        congr 1
        · apply List.map_congr_left
          intro x hx
          have hxc : x ≠ c := fun he => h (he ▸ (mem_firstSeen s x).mp hx)
          rw [List.count_append, count_single_ne hxc, Nat.add_zero]
        · rw [List.map_singleton, List.count_append, count_single_self,
            List.count_eq_zero.mpr h]

theorem pickFold_fst (l : List (Nat × Nat)) : ∀ acc : Nat × Nat,
    acc.1 ≤ (l.foldl pickStep acc).1 ∧
    ∀ pr ∈ l, pr.2 ≤ (l.foldl pickStep acc).1 := by
  induction l with
  | nil =>
      intro acc
      exact ⟨le_refl _, by simp⟩
  | cons pr₀ rest ih =>
      intro acc
      rw [List.foldl_cons]
      rcases ih (pickStep acc pr₀) with ⟨h1, h2⟩
      have hstep : acc.1 ≤ (pickStep acc pr₀).1 ∧
          pr₀.2 ≤ (pickStep acc pr₀).1 := by
        rw [pickStep]
        by_cases h : pr₀.2 > acc.1
        · rw [if_pos h]
          exact ⟨Nat.le_of_lt h, le_refl _⟩
        · rw [if_neg h]
          exact ⟨le_refl _, Nat.le_of_not_lt h⟩
      refine ⟨le_trans hstep.1 h1, ?_⟩
      intro pr hpr
      rcases List.mem_cons.mp hpr with rfl | hpr
      · exact le_trans hstep.2 h1
      · exact h2 pr hpr

theorem pickFold_const (l : List (Nat × Nat)) : ∀ acc : Nat × Nat,
    (∀ pr ∈ l, pr.2 ≤ acc.1) → l.foldl pickStep acc = acc := by
  induction l with
  | nil =>
      intro acc _
      rfl
  | cons pr₀ rest ih =>
      intro acc h
      rw [List.foldl_cons, pickStep,
        if_neg (Nat.not_lt.mpr (h pr₀ (List.mem_cons_self _ _)))]
      exact ih acc (fun pr hpr => h pr (List.mem_cons_of_mem _ hpr))

/-- The first-strict-max fold: when some tally exceeds the initial
maximum, the final champion is an element of the list attaining the
final maximum, and every element before it has a strictly smaller
tally. -/
theorem pickFold_champion (l : List (Nat × Nat)) : ∀ acc : Nat × Nat,
    (∃ pr ∈ l, acc.1 < pr.2) →
    ∃ l₁ pr l₂, l = l₁ ++ pr :: l₂ ∧
      pr.1 = (l.foldl pickStep acc).2 ∧
      pr.2 = (l.foldl pickStep acc).1 ∧
      ∀ q ∈ l₁, q.2 < (l.foldl pickStep acc).1 := by
  induction l with
  | nil =>
      intro acc h
      simp at h
  | cons pr₀ rest ih =>
      intro acc hex
      rw [List.foldl_cons]
      by_cases h0 : acc.1 < pr₀.2
      · have hstep : pickStep acc pr₀ = (pr₀.2, pr₀.1) := by
          rw [pickStep, if_pos h0]
        rw [hstep]
        by_cases hrest : ∃ q ∈ rest, pr₀.2 < q.2
        · rcases ih (pr₀.2, pr₀.1) hrest with ⟨l₁, pr, l₂, heq, h1, h2, h3⟩
          refine ⟨pr₀ :: l₁, pr, l₂, by rw [heq, List.cons_append],
            h1, h2, ?_⟩
          intro q hq
          rcases List.mem_cons.mp hq with rfl | hq
          · rcases hrest with ⟨q', hq', hlt⟩
            have hle := (pickFold_fst rest (q.2, q.1)).2 q' hq'
            exact lt_of_lt_of_le hlt hle
          · exact h3 q hq
        · push_neg at hrest
          rw [pickFold_const rest _ (by simpa using hrest)]
          exact ⟨[], pr₀, rest, rfl, rfl, rfl, by simp⟩
      · have hstep : pickStep acc pr₀ = acc := by
          rw [pickStep, if_neg h0]
        rw [hstep]
        have hex' : ∃ pr ∈ rest, acc.1 < pr.2 := by
          rcases hex with ⟨pr, hpr, hlt⟩
          rcases List.mem_cons.mp hpr with rfl | hpr
          · exact absurd hlt h0
          · exact ⟨pr, hpr, hlt⟩
        rcases ih acc hex' with ⟨l₁, pr, l₂, heq, h1, h2, h3⟩
        refine ⟨pr₀ :: l₁, pr, l₂, by rw [heq, List.cons_append],
          h1, h2, ?_⟩
        intro q hq
        rcases List.mem_cons.mp hq with rfl | hq
        · rcases hex' with ⟨q', hq', hlt⟩
          have hle := (pickFold_fst rest acc).2 q' hq'
          exact lt_of_le_of_lt (Nat.le_of_not_lt h0)
            (lt_of_lt_of_le hlt hle)
        · exact h3 q hq

theorem map_pair_decomp {α β : Type} (g : α → β) :
    ∀ (l₁ : List β) (pr : β) (l₂ : List β) (cs : List α),
    cs.map g = l₁ ++ pr :: l₂ →
    ∃ cs₁ a cs₂, cs = cs₁ ++ a :: cs₂ ∧ g a = pr ∧
      cs₁.map g = l₁ ∧ cs₂.map g = l₂ := by
  intro l₁
  induction l₁ with
  | nil =>
      intro pr l₂ cs h
      cases cs with
      | nil => simp at h
      | cons a cs' =>
          rw [List.map_cons, List.nil_append] at h
          injection h with h1 h2
          exact ⟨[], a, cs', rfl, h1, rfl, h2⟩
  | cons x l₁' ih =>
      intro pr l₂ cs h
      cases cs with
      | nil => simp at h
      | cons a cs' =>
          rw [List.map_cons, List.cons_append] at h
          injection h with h1 h2
          rcases ih pr l₂ cs' h2 with ⟨cs₁, a', cs₂, rfl, hg, hm1, hm2⟩
          exact ⟨a :: cs₁, a', cs₂, by rw [List.cons_append], hg,
            by rw [List.map_cons, hm1, h1], hm2⟩

/-- Elements later in the first-occurrence list occur strictly later
(by first index) in the underlying sequence. -/
theorem firstSeenAux_order : ∀ (s seen pre : List Nat) (a : Nat)
    (post : List Nat), firstSeenAux seen s = pre ++ a :: post →
    ∀ x ∈ post, s.indexOf a < s.indexOf x := by
  intro s
  induction s with
  | nil =>
      intro seen pre a post h x hx
      rw [firstSeenAux] at h
      rcases List.append_eq_nil.mp h.symm with ⟨_, h2⟩
      simp at h2
  | cons c cs ih =>
      intro seen pre a post h x hx
      rw [firstSeenAux] at h
      by_cases hc : c ∈ seen
      · rw [if_pos hc] at h
        have ha : a ∈ firstSeenAux seen cs := by
          rw [h]
          exact List.mem_append_right _ (List.mem_cons_self _ _)
        have hxm : x ∈ firstSeenAux seen cs := by
          rw [h]
          exact List.mem_append_right _ (List.mem_cons_of_mem _ hx)
        have ha' := (mem_firstSeenAux cs seen a).mp ha
        have hx' := (mem_firstSeenAux cs seen x).mp hxm
        have hac : a ≠ c := fun he => ha'.2 (he ▸ hc)
        have hxc : x ≠ c := fun he => hx'.2 (he ▸ hc)
        rw [List.indexOf_cons_ne _ (fun he => hac he.symm),
          List.indexOf_cons_ne _ (fun he => hxc he.symm)]
        exact Nat.succ_lt_succ (ih seen pre a post h x hx)
      · rw [if_neg hc] at h
        cases pre with
        | nil =>
            rw [List.nil_append] at h
            injection h with h1 h2
            subst h1
            have hx' := (mem_firstSeenAux cs (c :: seen) x).mp (h2 ▸ hx)
            have hxc : x ≠ c :=
              fun he => hx'.2 (he ▸ List.mem_cons_self _ _)
            rw [List.indexOf_cons_self,
              List.indexOf_cons_ne _ (fun he => hxc he.symm)]
            exact Nat.succ_pos _
        | cons y pre' =>
            rw [List.cons_append] at h
            injection h with h1 h2
            have ha : a ∈ firstSeenAux (c :: seen) cs := by
              rw [h2]
              exact List.mem_append_right _ (List.mem_cons_self _ _)
            have hxm : x ∈ firstSeenAux (c :: seen) cs := by
              rw [h2]
              exact List.mem_append_right _ (List.mem_cons_of_mem _ hx)
            have ha' := (mem_firstSeenAux cs (c :: seen) a).mp ha
            have hx' := (mem_firstSeenAux cs (c :: seen) x).mp hxm
            have hac : a ≠ c :=
              fun he => ha'.2 (he ▸ List.mem_cons_self _ _)
            have hxc : x ≠ c :=
              fun he => hx'.2 (he ▸ List.mem_cons_self _ _)
            rw [List.indexOf_cons_ne _ (fun he => hac he.symm),
              List.indexOf_cons_ne _ (fun he => hxc he.symm)]
            exact Nat.succ_lt_succ (ih (c :: seen) pre' a post h2 x hx)

/-- What the favorite-court fold computes over a sequence of courts:
a most-frequent value, with ties resolved in favor of the value whose
first occurrence is earliest. -/
theorem pickFavorite_countsOf_spec (s : List Nat) (hne : s ≠ []) :
    pickFavorite (countsOf s) ∈ s ∧
    (∀ c ∈ s, s.count c ≤ s.count (pickFavorite (countsOf s))) ∧
    (∀ c ∈ s, s.count c = s.count (pickFavorite (countsOf s)) →
      s.indexOf (pickFavorite (countsOf s)) ≤ s.indexOf c) := by
  obtain ⟨c₀, hc₀⟩ : ∃ c, c ∈ s := by
    cases s with
    | nil => exact absurd rfl hne
    | cons a l => exact ⟨a, List.mem_cons_self _ _⟩
  have hex : ∃ pr ∈ countsOf s, ((0, 1) : Nat × Nat).1 < pr.2 := by
    rw [countsOf_eq_canonical]
    refine ⟨(c₀, s.count c₀), List.mem_map.mpr
      ⟨c₀, (mem_firstSeen s c₀).mpr hc₀, rfl⟩, ?_⟩
    exact List.count_pos_iff.mpr hc₀
  rcases pickFold_champion (countsOf s) (0, 1) hex with
    ⟨l₁, pr, l₂, heq, h1, h2, h3⟩
  have heq' := heq
  rw [countsOf_eq_canonical] at heq'
  rcases map_pair_decomp _ l₁ pr l₂ (firstSeen s) heq' with
    ⟨cs₁, a, cs₂, hfs, hga, hm1, hm2⟩
  have hfav : pickFavorite (countsOf s) = a := by
    rw [pickFavorite, ← h1, ← hga]
  have hcnt : s.count a = ((countsOf s).foldl pickStep (0, 1)).1 := by
    rw [← h2, ← hga]
  have hamem : a ∈ s := (mem_firstSeen s a).mp
    (hfs ▸ List.mem_append_right _ (List.mem_cons_self _ _))
  rw [hfav]
  refine ⟨hamem, ?_, ?_⟩
  · intro c hc
    have hcm : (c, s.count c) ∈ countsOf s := by
      rw [countsOf_eq_canonical]
      exact List.mem_map.mpr ⟨c, (mem_firstSeen s c).mpr hc, rfl⟩
    have h4 : s.count c ≤ ((countsOf s).foldl pickStep (0, 1)).1 :=
      (pickFold_fst (countsOf s) (0, 1)).2 _ hcm
    rw [← hcnt] at h4
    exact h4
  · intro c hc hceq
    by_cases hca : c = a
    · rw [hca]
    · have hcf : c ∈ firstSeen s := (mem_firstSeen s c).mpr hc
      rw [hfs] at hcf
      rcases List.mem_append.mp hcf with hcf | hcf
      · have hcl : (c, s.count c) ∈ l₁ := by
          rw [← hm1]
          exact List.mem_map.mpr ⟨c, hcf, rfl⟩
        have hlt : s.count c < ((countsOf s).foldl pickStep (0, 1)).1 :=
          h3 _ hcl
        rw [← hcnt] at hlt
        omega
      · rcases List.mem_cons.mp hcf with hca' | hcf
        · exact absurd hca' hca
        · exact Nat.le_of_lt
            (firstSeenAux_order s [] cs₁ a cs₂ hfs c hcf)

/-- C2: each output record's `favoriteCourt` is a most-frequent court
among the bookings whose players list contains the record's raw name,
with ties broken in favor of the court first encountered in the
input-order scan. -/
theorem claim_C2 (bs : List Booking) (st : PlayerStat)
    (hst : st ∈ calculatePlayerStats bs) :
    st.favoriteCourt ∈ playerCourts bs st.name ∧
    (∀ c ∈ playerCourts bs st.name,
      (playerCourts bs st.name).count c ≤
        (playerCourts bs st.name).count st.favoriteCourt) ∧
    (∀ c ∈ playerCourts bs st.name,
      (playerCourts bs st.name).count c =
        (playerCourts bs st.name).count st.favoriteCourt →
      (playerCourts bs st.name).indexOf st.favoriteCourt ≤
        (playerCourts bs st.name).indexOf c) := by
  rcases mem_calculatePlayerStats.mp hst with ⟨kv, hkv, rfl⟩
  have hsi := (buildStats_inv bs).1 kv hkv
  have hname : ({ kv.2 with favoriteCourt := favoriteCourtFor bs kv.1 }
      : PlayerStat).name = kv.1 := hsi.2.1
  have hfc : ({ kv.2 with favoriteCourt := favoriteCourtFor bs kv.1 }
      : PlayerStat).favoriteCourt = favoriteCourtFor bs kv.1 := rfl
  rw [hname, hfc]
  have hkeys : kv.1 ∈ (buildStats bs).map Prod.fst :=
    List.mem_map.mpr ⟨kv, hkv, rfl⟩
  have hpos : 0 < totalCount bs kv.1 :=
    ((buildStats_inv bs).2.2 kv.1 hsi.1).mp ((getA_isSome_iff _ _).mpr hkeys)
  rcases (totalCount_pos_iff bs kv.1).mp hpos with ⟨b, hb, hpb⟩
  have hne : playerCourts bs kv.1 ≠ [] := by
    intro hnil
    have hmem : b.court ∈ playerCourts bs kv.1 := by
      rw [playerCourts]
      exact List.mem_map.mpr
        ⟨b, List.mem_filter.mpr ⟨hb, decide_eq_true hpb⟩, rfl⟩
    rw [hnil] at hmem
    exact absurd hmem (List.not_mem_nil _)
  have hspec := pickFavorite_countsOf_spec (playerCourts bs kv.1) hne
  rw [favoriteCourtFor, courtCountsFor_eq_countsOf]
  exact hspec

/-- Witness for `claim_C2`: courts encountered in order [3, 1], one
booking each, give `favoriteCourt = 3`. -/
theorem claim_C2_witness :
    (3 : Nat) ∈ playerCourts
      [mkBooking 3 ["Zoe"] BType.singles "2024-01-07",
       mkBooking 1 ["Zoe"] BType.singles "2024-01-14"] "Zoe" ∧
    (calculatePlayerStats
        [mkBooking 3 ["Zoe"] BType.singles "2024-01-07",
         mkBooking 1 ["Zoe"] BType.singles "2024-01-14"]).map
      (fun st => st.favoriteCourt) = [3] := by
  constructor
  · exact (claim_C2
      [mkBooking 3 ["Zoe"] BType.singles "2024-01-07",
       mkBooking 1 ["Zoe"] BType.singles "2024-01-14"]
      { name := "Zoe", totalMatches := 2, singlesMatches := 2,
        doublesMatches := 0, totalHours := 2, favoriteCourt := 3,
        lastPlayed := "2024-01-14" } (by decide)).1
  · decide

/-! ## Theorems about the email component -/

theorem validateEmails_sublist (emails : List String) :
    (validateEmails emails).Sublist emails :=
  List.filter_sublist emails

theorem mem_validateEmails {emails : List String} {e : String} :
    e ∈ validateEmails emails ↔
      e ∈ emails ∧ (jsTrim e ≠ "" && emailRegexMatch (jsTrim e)) = true := by
  simp [validateEmails, List.mem_filter]

/-- C7: every entered address failing the shape check is excluded from
the dispatch set (`foo@bar` fails, `foo@bar.com` passes), and when no
valid recipient remains the call ends in an error status with no send
call made. -/
theorem claim_C7 :
    emailRegexMatch "foo@bar" = false ∧
    emailRegexMatch "foo@bar.com" = true ∧
    (∀ emails e, e ∈ emails →
      (jsTrim e ≠ "" && emailRegexMatch (jsTrim e)) = false →
      e ∉ validateEmails emails) ∧
    (∀ emails subject message sendOk, validateEmails emails = [] →
      (sendNotifications emails subject message sendOk).status =
        SendStatus.error ∧
      (sendNotifications emails subject message sendOk).sentTo = []) := by
  refine ⟨by decide, by decide, ?_, ?_⟩
  · intro emails e _ hfail hmem
    rw [mem_validateEmails] at hmem
    rw [hmem.2] at hfail
    exact Bool.noConfusion hfail
  · intro emails subject message sendOk hnone
    simp [sendNotifications, hnone]

/-- Witness for `claim_C7` at concrete inputs. -/
theorem claim_C7_witness :
    "foo@bar" ∉ validateEmails ["foo@bar"] ∧
    (sendNotifications ["foo@bar"] "subject" "message" (fun _ => true)).status
      = SendStatus.error ∧
    (sendNotifications ["foo@bar"] "subject" "message" (fun _ => true)).sentTo
      = [] := by
  refine ⟨?_, ?_, ?_⟩
  · exact claim_C7.2.2.1 ["foo@bar"] "foo@bar" (by decide) (by decide)
  · exact (claim_C7.2.2.2 ["foo@bar"] "subject" "message" (fun _ => true)
      (by decide)).1
  · exact (claim_C7.2.2.2 ["foo@bar"] "subject" "message" (fun _ => true)
      (by decide)).2

/-- C8: a dispatch of N valid emails records an outcome for every
recipient; all-success yields a success status, and F ≥ 1 failures
yield an error whose message is the aggregate count
"Failed to send F out of N emails.". -/
theorem claim_C8 (emails : List String) (subject message : String)
    (sendOk : String → Bool)
    (hsome : validateEmails emails ≠ [])
    (hsubj : jsTrim subject ≠ "") (hmsg : jsTrim message ≠ "") :
    (sendNotifications emails subject message sendOk).sentTo =
      validateEmails emails ∧
    ((((validateEmails emails).map sendOk).filter (fun r => !r)).length = 0 →
      (sendNotifications emails subject message sendOk).status =
        SendStatus.success) ∧
    (0 < (((validateEmails emails).map sendOk).filter (fun r => !r)).length →
      (sendNotifications emails subject message sendOk).status =
        SendStatus.error ∧
      (sendNotifications emails subject message sendOk).errorMessage =
        "Failed to send " ++
          toString (((validateEmails emails).map sendOk).filter
            (fun r => !r)).length ++
          " out of " ++ toString (validateEmails emails).length ++
          " emails.") := by
  have hlen : (validateEmails emails).length ≠ 0 := by
    simpa [List.length_eq_zero] using hsome
  by_cases hfail :
      (((validateEmails emails).map sendOk).filter (fun r => !r)).length = 0
  · refine ⟨?_, fun _ => ?_, fun hpos => ?_⟩
    · simp [sendNotifications, hlen, hsubj, hmsg, hfail]
    · simp [sendNotifications, hlen, hsubj, hmsg, hfail]
    · omega
  · refine ⟨?_, fun h0 => absurd h0 hfail, fun _ => ⟨?_, ?_⟩⟩
    · simp [sendNotifications, hlen, hsubj, hmsg, hfail]
    · simp [sendNotifications, hlen, hsubj, hmsg, hfail]
    · simp [sendNotifications, hlen, hsubj, hmsg, hfail]

/-- Witness for `claim_C8`: 1 failure out of 3 sends reports
"1 out of 3". -/
theorem claim_C8_witness :
    (sendNotifications ["a@b.c", "d@e.f", "g@h.i"] "s" "m"
      (fun e => e != "d@e.f")).status = SendStatus.error ∧
    (sendNotifications ["a@b.c", "d@e.f", "g@h.i"] "s" "m"
      (fun e => e != "d@e.f")).errorMessage =
      "Failed to send 1 out of 3 emails." := by
  have h := (claim_C8 ["a@b.c", "d@e.f", "g@h.i"] "s" "m"
    (fun e => e != "d@e.f") (by decide) (by decide) (by decide)).2.2
    (by decide)
  refine ⟨h.1, ?_⟩
  rw [h.2]
  decide

/-! ## Theorems about the booking-list updates -/

theorem removeCell_no_match (bs : List Booking) (c : Nat) (t : String) :
    (removeCell bs c t).filter
      (fun b => decide (b.court = c ∧ b.timeSlot = t)) = [] := by
  rw [removeCell, List.filter_filter, List.filter_eq_nil_iff]
  intro b _
  simp

theorem filter_removeCell_length_le (bs : List Booking) (c₀ : Nat)
    (t₀ : String) (p : Booking → Bool) :
    ((removeCell bs c₀ t₀).filter p).length ≤ (bs.filter p).length := by
  rw [removeCell, List.filter_comm]
  exact List.length_filter_le _ _

/-- C10: saving and deleting both preserve the at-most-one-booking-
per-cell invariant; saving replaces the edited cell's booking, and
saving with all-blank player inputs removes the cell's booking. -/
theorem claim_C10 (bs : List Booking) (editing : EditingCell)
    (playerInputs : List String) (newId selectedDate : String)
    (hinv : atMostOnePerCell bs) :
    atMostOnePerCell
      (handleSaveBooking bs editing playerInputs newId selectedDate) ∧
    atMostOnePerCell (handleDeleteBooking bs editing) ∧
    ((∀ p ∈ playerInputs, jsTrim p = "") →
      handleSaveBooking bs editing playerInputs newId selectedDate =
        removeCell bs editing.court editing.timeSlot) := by
  have hdel : atMostOnePerCell (removeCell bs editing.court editing.timeSlot) := by
    intro c t
    exact le_trans (filter_removeCell_length_le bs _ _ _) (hinv c t)
  refine ⟨?_, hdel, ?_⟩
  · unfold handleSaveBooking
    by_cases hblank :
        (playerInputs.filter (fun p => jsTrim p ≠ "")).length = 0
    · rw [if_pos hblank]
      exact hdel
    · rw [if_neg hblank]
      intro c t
      rw [List.filter_append, List.length_append]
      by_cases hcell : c = editing.court ∧ t = editing.timeSlot
      · rw [hcell.1, hcell.2, removeCell_no_match]
        simp only [List.length_nil, Nat.zero_add]
        exact List.length_filter_le _ _
      · have hnew :
            (List.filter
              (fun (b : Booking) => decide (b.court = c ∧ b.timeSlot = t))
              [{ id := newId, court := editing.court,
                 timeSlot := editing.timeSlot,
                 players := playerInputs.filter (fun p => jsTrim p ≠ ""),
                 type := editing.type, date := selectedDate }]) = [] := by
          apply List.filter_eq_nil_iff.mpr
          intro x hx
          rcases List.mem_singleton.mp hx with rfl
          simp only [decide_eq_true_eq, Bool.not_eq_true]
          intro hcontra
          exact hcell ⟨hcontra.1.symm, hcontra.2.symm⟩
        rw [hnew]
        simpa using le_trans (filter_removeCell_length_le bs _ _ _) (hinv c t)
  · intro hall
    have hfe : playerInputs.filter (fun p => jsTrim p ≠ "") = [] := by
      rw [List.filter_eq_nil_iff]
      intro p hp
      simpa using hall p hp
    unfold handleSaveBooking
    rw [hfe]
    rfl

/-- Witness for `claim_C10` at a concrete one-element booking list. -/
theorem claim_C10_witness :
    atMostOnePerCell
      (handleSaveBooking
        [{ id := "b1", court := 1, timeSlot := "5:00-6:00 PM",
           players := ["Alice", "Bob"], type := BType.singles,
           date := "2024-01-07" }]
        { court := 1, timeSlot := "5:00-6:00 PM", type := BType.singles }
        ["Cara", "Dan"] "b2" "2024-01-07") ∧
    handleSaveBooking
        [{ id := "b1", court := 1, timeSlot := "5:00-6:00 PM",
           players := ["Alice", "Bob"], type := BType.singles,
           date := "2024-01-07" }]
        { court := 1, timeSlot := "5:00-6:00 PM", type := BType.singles }
        [" ", ""] "b2" "2024-01-07" =
      removeCell
        [{ id := "b1", court := 1, timeSlot := "5:00-6:00 PM",
           players := ["Alice", "Bob"], type := BType.singles,
           date := "2024-01-07" }] 1 "5:00-6:00 PM" := by
  have hinv : atMostOnePerCell
      [{ id := "b1", court := 1, timeSlot := "5:00-6:00 PM",
         players := ["Alice", "Bob"], type := BType.singles,
         date := "2024-01-07" }] := by
    intro c t
    exact le_trans (List.length_filter_le _ _) (by simp)
  refine ⟨(claim_C10 _ _ _ _ _ hinv).1, ?_⟩
  exact (claim_C10 _
    { court := 1, timeSlot := "5:00-6:00 PM", type := BType.singles }
    [" ", ""] "b2" "2024-01-07" hinv).2.2 (by decide)

end Tennis
